import Mathlib

/-!
Verification of the PyQtTester capture/replay harness (`qttestgui.py`).

The development shallowly embeds the program's core — the `Resolver`
(object-path serializer/deserializer, enum/flag name resolver, event codec)
and the `EventRecorder` capture filter — as executable Lean definitions and
proves the specification's testable properties about them.

Modelling conventions:
* Python `int` is `Int` (arbitrary precision, no overflow).
* A Qt namespace class (e.g. `QtCore.Qt`, `QtCore.QEvent`) is a `Namespace`:
  its `__name__` plus the flat list of declared enum members in declaration
  order, each with its enum class name and integer value.  The fallback
  introspection branch of `_qenum_key` (first declared match wins) is the
  modelled behaviour.
* The live widget tree is a forest of `QObject` rose trees; Python object
  identity is modelled by the object's raw position in the forest
  (`List Nat`: index of the top-level widget, then child indices).
* Python exceptions that the source can raise and does not catch are
  modelled with `Except`; a `try/except IndexError` around list indexing is
  modelled with optional indexing (`l[i]?`).
-/

/-- `PathElement = namedtuple('PathElement', ('index', 'type', 'name'))`:
`index` is the rank of the object among same-type siblings, `type` the
runtime type (modelled by its name), `name` the `objectName()` string. -/
structure PathElement where
  index : Nat
  type : String
  name : String
deriving DecidableEq, Repr

/-- A live Qt object: runtime type name, `objectName()`, ordered children. -/
inductive QObject : Type where
  | node : String → String → List QObject → QObject

/-- Runtime type name of an object (`type(obj).__name__`). -/
def QObject.type : QObject → String
  | .node t _ _ => t

/-- `obj.objectName()`. -/
def QObject.name : QObject → String
  | .node _ n _ => n

/-- `obj.children()`, in order. -/
def QObject.children : QObject → List QObject
  | .node _ _ cs => cs

/-- One declared enum member of a Qt namespace: its attribute name, the
name of the enum class it is an instance of, and its integer value. -/
structure EnumMember where
  name : String
  cls : String
  value : Int
deriving DecidableEq, Repr

/-- A Qt namespace class (`base` argument of `_qenum_key`/`_qflags_key`):
`__name__` plus `__dict__`'s declared enum members in declaration order. -/
structure Namespace where
  nsname : String
  members : List EnumMember
deriving DecidableEq, Repr

/-- `Resolver._qenum_key(base, value, klass)`: the key of `value` in enum
class `klass`, namespaced, or `''`.  Models the fallback branch: scan
`base.__dict__` in declaration order for the first instance of `klass`
equal to `value`; `klass == int` yields `''` at once. -/
def _qenum_key (base : Namespace) (value : Int) (klass : String) : String :=
  if klass = "int" then ""
  else
    match base.members.find? (fun m => m.cls == klass && m.value == value) with
    | some m => base.nsname ++ "." ++ m.name
    | none => ""

/-- The `while mask <= value` loop of `_qflags_key`, with `mask = 2^k`
(the mask starts at `1` and is doubled, `mask <<= 1`, each iteration).
Collects `_qenum_key base mask klass` for every set bit, in ascending
bit-significance order. -/
def flagsLoop (base : Namespace) (klass : String) (value : Int) (k : Nat) : List String :=
  if h : ((2 ^ k : Nat) : Int) ≤ value then
    (if Int.land value ((2 ^ k : Nat) : Int) ≠ 0 then [_qenum_key base ((2 ^ k : Nat) : Int) klass] else [])
      ++ flagsLoop base klass value (k + 1)
  else []
termination_by (value + 1 - ((2 ^ k : Nat) : Int)).toNat
decreasing_by
  have h1 : (1 : Nat) ≤ 2 ^ k := Nat.one_le_two_pow
  have h2 : (2 ^ (k + 1) : Nat) = 2 ^ k + 2 ^ k := by rw [pow_succ]; omega
  rw [h2]
  generalize (2 ^ k : Nat) = m at *
  omega

/-- Python's `s.endswith(suffix)`. -/
def pyEndsWith (s suffix : String) : Bool :=
  let l := s.toList
  let p := suffix.toList
  if p.length ≤ l.length then l.drop (l.length - p.length) == p else false

/-- Python's `s.startswith(pre)`. -/
def pyStartsWith (s pre : String) : Bool :=
  s.toList.take pre.toList.length == pre.toList

/-- Python's `s[:-1]` (drop the final character). -/
def pyDropLast (s : String) : String := String.mk s.toList.dropLast

/-- Python's `sep.join(strings)`, character-list level. -/
def intercalateL (sep : List Char) : List (List Char) → List Char
  | [] => []
  | [p] => p
  | p :: ps => p ++ sep ++ intercalateL sep ps

/-- Python's `sep.join(strings)`. -/
def pyJoin (sep : String) (xs : List String) : String :=
  String.mk (intercalateL sep.toList (xs.map String.toList))

/-- `Resolver._qflags_key(base, value, klass)`: decompose a flags value
into single-bit keys and join the found names with `'|'`.  A plural class
name is stripped to the singular enum class; bitmask `0` is resolved by a
single `_qenum_key` call at value `0`. -/
def _qflags_key (base : Namespace) (value : Int) (klass : String) : String :=
  if klass = "int" then ""
  else
    let kl := if pyEndsWith klass "s" then pyDropLast klass else klass
    let keys := flagsLoop base kl value 0
    let keys := if keys = [] ∧ value = 0 then [_qenum_key base 0 kl] else keys
    pyJoin "|" (keys.filter (fun s => s != ""))

/-- Fuel-indexed variant of the `while mask <= value` loop of
`_qflags_key`: each recursive step consumes one unit of fuel and `none`
means the fuel ran out before the loop condition failed. -/
def flagsLoopFuel (base : Namespace) (klass : String) :
    Nat → Int → Nat → Option (List String)
  | 0, _, _ => none
  | fuel + 1, value, k =>
    if ((2 ^ k : Nat) : Int) ≤ value then
      (flagsLoopFuel base klass fuel value (k + 1)).map
        (fun rest =>
          (if Int.land value ((2 ^ k : Nat) : Int) ≠ 0 then [_qenum_key base ((2 ^ k : Nat) : Int) klass] else [])
            ++ rest)
    else some []

/-- `QT_KEYS`, built in `main` as
`{value: 'Qt.' + key for key, value in Qt.__dict__.items() if key.startswith('Key_')}`;
for a duplicated value the later declaration wins, as in a dict
comprehension. -/
def QT_KEYS (qtNs : Namespace) (v : Int) : Option String :=
  ((qtNs.members.filter (fun m => pyStartsWith m.name "Key_" && m.value == v)).getLast?).map
    (fun m => "Qt." ++ m.name)

/-- `EventRecorder.EventType`, built as
`{v: k for k, v in QtCore.QEvent.__dict__.items() if isinstance(v, int)}`;
for a duplicated value the later declaration wins. -/
def EventType (qeventNs : Namespace) (v : Int) : Option String :=
  ((qeventNs.members.filter (fun m => m.value == v)).getLast?).map (fun m => m.name)

/-- `EventRecorder.QEVENT_EVENTS`: the capture allow-list, as the numeric
`QEvent.Type` codes of the listed members — DragEnter 60, DragLeave 62,
DragMove 61, Drop 63, Enter 10, KeyPress 6, KeyRelease 7,
MouseButtonDblClick 4, MouseButtonPress 2, MouseButtonRelease 3,
MouseMove 5, Move 13. -/
def QEVENT_EVENTS : List Int := [60, 62, 61, 63, 10, 6, 7, 4, 2, 3, 5, 13]

/-- `Resolver.EVENT_ATTRIBUTES`: the static attribute-order table, one
entry per supported event class, attributes ordered as the constructor
takes them. -/
def EVENT_ATTRIBUTES : List (String × List String) :=
  [("QMouseEvent", ["pos", "globalPos", "button", "buttons", "modifiers"]),
   ("QKeyEvent", ["key", "modifiers", "text", "isAutoRepeat", "count"])]

/-- Decimal digits of a natural number, most significant first (the
character list of Python's `str` of a non-negative integer). -/
def natToChars (n : Nat) : List Char :=
  if n < 10 then [Nat.digitChar n]
  else natToChars (n / 10) ++ [Nat.digitChar (n % 10)]
decreasing_by exact Nat.div_lt_self (by omega) (by omega)

/-- Python's `str(value)` for an `int`: decimal digits, `'-'`-prefixed when
negative. -/
def pyIntStr (n : Int) : String :=
  if n < 0 then String.mk ('-' :: natToChars (-n).toNat)
  else String.mk (natToChars n.toNat)

/-- Python's `str(value)` for a `bool`. -/
def pyBoolStr (b : Bool) : String := if b then "True" else "False"

/-- The runtime value of one event attribute, discriminated the way
`_serialize_value` discriminates: a plain `int`, a `str`, a `bool`, a
`QPointF/QPoint`, a `QRectF/QRect`, an enum value (an `int` subclass whose
runtime class is a Qt enum class), or a `QFlags` object (not an `int`
instance; its runtime class is the flags class). -/
inductive QValue : Type where
  | int (n : Int)
  | str (s : String)
  | bool (b : Bool)
  | point (x y : Int)
  | rect (x y w h : Int)
  | enumv (n : Int) (cls : String)
  | flags (n : Int) (cls : String)
deriving DecidableEq, Repr

/-- A Python exception escaping the serializer: the `ValueError` raised at
the bottom of `_serialize_value`, the `KeyError` of a failed `QT_KEYS`
lookup, or an `AttributeError`/`ValueError` from `getattr`/`list.index`. -/
inductive SerErr : Type where
  | valueError
  | keyError
  | attrError
deriving DecidableEq, Repr

/-- What `_serialize_value` returns: a string, or the literal `...`
(Ellipsis) placeholder the source returns for point and rect values. -/
inductive SerValue : Type where
  | s (v : String)
  | ellipsis
deriving DecidableEq, Repr

/-- `Resolver._serialize_value(value, attr)`.  A plain `int` is rendered
with `str` — except attribute `'key'`, which is looked up in `QT_KEYS`
(`KeyError` when absent); `str`/`bool` are rendered directly; point/rect
values yield the source's literal `...`; an enum value is tried with
`_qenum_key`, then (class name ending in `'s'`) with `_qflags_key`; a
flags object with `_qflags_key`; an empty name falls through to
`raise ValueError`. -/
def _serialize_value (qtNs : Namespace) (value : QValue) (attr : String) :
    Except SerErr SerValue :=
  match value with
  | .int n =>
    if attr = "key" then
      match QT_KEYS qtNs n with
      | some s => .ok (.s s)
      | none => .error .keyError
    else .ok (.s (pyIntStr n))
  | .str s => .ok (.s s)
  | .bool b => .ok (.s (pyBoolStr b))
  | .point _ _ => .ok .ellipsis
  | .rect _ _ _ _ => .ok .ellipsis
  | .enumv n cls =>
    let s := _qenum_key qtNs n cls
    if s ≠ "" then .ok (.s s)
    else if pyEndsWith cls "s" then
      let s2 := _qflags_key qtNs n cls
      if s2 ≠ "" then .ok (.s s2) else .error .valueError
    else .error .valueError
  | .flags n cls =>
    if pyEndsWith cls "s" then
      let s2 := _qflags_key qtNs n cls
      if s2 ≠ "" then .ok (.s s2) else .error .valueError
    else .error .valueError

/-- A live Qt event as the serializer sees it: its runtime class name,
whether `event.spontaneous()` holds, the `event.type()` discriminant, and
the attribute accessors `getattr(event, attr)()` as an association list. -/
structure QEventObj where
  className : String
  spontaneous : Bool
  etype : Int
  attrs : List (String × QValue)
deriving DecidableEq, Repr

/-- The record `serialize_event` produces (the source's
`tuple(args)`, whose first two entries are always the event class name and
the kind tag): `{eventClass, eventKindName, args}`. -/
structure SerializedEvent where
  eventClass : String
  eventKindName : String
  args : List SerValue
deriving DecidableEq, Repr

/-- The `for attr in event_attributes` loop of `serialize_event`:
`args.append(cls._serialize_value(value, attr))` under
`try ... except ValueError` — a `ValueError` omits the attribute and
continues, any other exception propagates. -/
def serializeAttrs (qtNs : Namespace) (e : QEventObj) :
    List String → Except SerErr (List SerValue)
  | [] => .ok []
  | a :: rest =>
    match e.attrs.lookup a with
    | none => .error .attrError
    | some v =>
      match _serialize_value qtNs v a with
      | .ok sv =>
        match serializeAttrs qtNs e rest with
        | .ok tl => .ok (sv :: tl)
        | .error err => .error err
      | .error .valueError => serializeAttrs qtNs e rest
      | .error err => .error err

/-- `Resolver.serialize_event(event)`: look up the attribute-order table by
the event's class name (empty when unlisted, with a logged diagnostic),
resolve the kind tag with `_qenum_key(QtCore.QEvent, event.type())`, then
serialize the listed attributes. -/
def serialize_event (qtNs qeventNs : Namespace) (e : QEventObj) :
    Except SerErr SerializedEvent :=
  let event_attributes := (EVENT_ATTRIBUTES.lookup e.className).getD []
  match serializeAttrs qtNs e event_attributes with
  | .ok args => .ok ⟨e.className, _qenum_key qeventNs e.etype "Type", args⟩
  | .error err => .error err

/-- Children of a list paired with their indices (starting at `k`): the
positions `filtertype` narrowing and the candidate loops iterate over. -/
def enumChildren (k : Nat) : List QObject → List (Nat × QObject)
  | [] => []
  | c :: cs => (k, c) :: enumChildren (k + 1) cs

/-- `filtertype(target_type, iterable)` over indexed children:
`[i for i in iterable if type(i) == target_type]`, keeping indices. -/
def filtertypeIdx (t : String) (l : List (Nat × QObject)) : List (Nat × QObject) :=
  l.filter (fun jc => jc.2.type == t)

/-- `_index_by_type(lst, obj)`:
`[i for i in lst if type(i) == type(obj)].index(obj)` — the rank of the
object at position `i` among the earlier siblings of type `t`. -/
def rankByType (cs : List QObject) (i : Nat) (t : String) : Nat :=
  ((cs.take i).filter (fun c => c.type == t)).length

/-- `Resolver.serialize_object(obj)` for the object at raw position `pos`
in the forest `ws`: the root-to-target tuple of
`PathElement(index_by_type, type(obj), obj.objectName())` that the
bottom-up `_canonical_path` walk produces after `reversed`.  `none` when
the position does not denote an object. -/
def serialize_object (ws : List QObject) : List Nat → Option (List PathElement)
  | [] => none
  | [i] =>
    match ws[i]? with
    | none => none
    | some w => some [⟨rankByType ws i w.type, w.type, w.name⟩]
  | i :: j :: rest =>
    match ws[i]? with
    | none => none
    | some w =>
      match serialize_object w.children (j :: rest) with
      | none => none
      | some tl => some (⟨rankByType ws i w.type, w.type, w.name⟩ :: tl)

/-- The object at a raw position of the forest, if any. -/
def getObj (ws : List QObject) : List Nat → Option QObject
  | [] => none
  | [i] => ws[i]?
  | i :: j :: rest =>
    match ws[i]? with
    | none => none
    | some w => getObj w.children (j :: rest)

/-- First immediate child (scanning left to right) with the wanted exact
type and name; its index.  First phase of Qt's recursive
`findChild` helper. -/
def findScan : List QObject → String → String → Option Nat
  | [], _, _ => none
  | c :: cs, t, n =>
    if c.type = t ∧ c.name = n then some 0
    else (findScan cs t n).map (· + 1)

mutual

/-- Qt's `qt_qFindChild_helper` below one object: scan the immediate
children first, then recurse into each child in order.  Returns the
position of the first match relative to `w`. -/
def findHelper (w : QObject) (t n : String) : Option (List Nat) :=
  match findScan w.children t n with
  | some i => some [i]
  | none => findDeep 0 w.children t n
termination_by 2 * sizeOf w
decreasing_by
  have h : sizeOf w.children < sizeOf w := by
    cases w with
    | node t0 n0 cs0 => simp only [QObject.children, QObject.node.sizeOf_spec]; omega
  omega

/-- Recursion phase of `qt_qFindChild_helper` over a child list whose
first element has index `j`. -/
def findDeep : Nat → List QObject → String → String → Option (List Nat)
  | _, [], _, _ => none
  | j, c :: cs, t, n =>
    match findHelper c t n with
    | some p => some (j :: p)
    | none => findDeep (j + 1) cs t n
termination_by _ l _ _ => 2 * sizeOf l + 1
decreasing_by
  · simp only [List.cons.sizeOf_spec]; omega
  · simp only [List.cons.sizeOf_spec]; omega

end

/-- `qApp.findChild(type, name)`: search the whole live forest, immediate
children of the application first, then recursively (Qt's
`qt_qFindChild_helper` order).  Returns the raw position of the first
descendant with exactly that type and name. -/
def findChildApp (ws : List QObject) (t n : String) : Option (List Nat) :=
  match findScan ws t n with
  | some i => some [i]
  | none => findDeep 0 ws t n

mutual

/-- `get_candidates(widget, i)` of `Resolver.deserialize_object`, for the
widget at raw position `base` and the remaining path `path[i:]`: the
widget qualifies only if its type equals `path[i].type` and `path[i].name`
is empty or equals its name; the end of the path is terminal success; in
non-fuzzy mode the children are narrowed to the single child of
`path[i+1].type` at rank `path[i+1].index` (`except IndexError` — a miss
is a dead end), in fuzzy mode all children are tried in order. -/
def get_candidates (fuzzy : Bool) (w : QObject) (base : List Nat) :
    List PathElement → Option (List Nat)
  | [] => none
  | e :: rest =>
    if w.type = e.type ∧ (e.name = "" ∨ e.name = w.name) then
      match rest with
      | [] => some base
      | e' :: restTl =>
        if fuzzy then tryChildren fuzzy base (enumChildren 0 w.children) (e' :: restTl)
        else
          match (filtertypeIdx e'.type (enumChildren 0 w.children))[e'.index]? with
          | some jc => tryChildren fuzzy base [jc] (e' :: restTl)
          | none => none
    else none
termination_by p => (p.length, 0)
decreasing_by
  · exact Prod.Lex.left _ _ (by simp only [List.length_cons]; omega)
  · exact Prod.Lex.left _ _ (by simp only [List.length_cons]; omega)

/-- `for child in children: obj = get_candidates(child, i + 1); if obj:
return obj` — first hit wins, `None` when the loop falls through. -/
def tryChildren (fuzzy : Bool) (base : List Nat) :
    List (Nat × QObject) → List PathElement → Option (List Nat)
  | [], _ => none
  | jc :: cs, p =>
    match get_candidates fuzzy jc.2 (base ++ [jc.1]) p with
    | some r => some r
    | none => tryChildren fuzzy base cs p
termination_by l p => (p.length, l.length + 1)
decreasing_by
  · exact Prod.Lex.right _ (by simp only [List.length_cons]; omega)
  · exact Prod.Lex.right _ (by simp only [List.length_cons]; omega)

end

/-- `Resolver.deserialize_object(qApp, path)`: `path[-1]` raises on an
empty path (modelled `.error`); a non-empty name triggers the
`qApp.findChild` fast path; otherwise the top-level widgets are narrowed
in non-fuzzy mode to the single one of `path[0].type` at rank
`path[0].index` (`except IndexError` — `None` on a miss) and the
candidate loop runs; `None` (here `.ok none`) when nothing qualifies. -/
def deserialize_object (fuzzy : Bool) (ws : List QObject)
    (p : List PathElement) : Except Unit (Option (List Nat)) :=
  match p.getLast? with
  | none => .error ()
  | some target =>
    .ok
      (match (if target.name ≠ "" then findChildApp ws target.type target.name else none) with
       | some obj => some obj
       | none =>
         match p with
         | [] => none
         | e0 :: _ =>
           if fuzzy then tryChildren fuzzy [] (enumChildren 0 ws) p
           else
             match (filtertypeIdx e0.type (enumChildren 0 ws))[e0.index]? with
             | some jw => tryChildren fuzzy [] [jw] p
             | none => none)

/-- `Resolver.getstate(obj, event)`: the picklable `ScenarioEntry`
`(serialize_object(obj), serialize_event(event))`.  A target object that
the canonical-path walk cannot rank (`list.index` misses) raises
`ValueError`; event-serialization errors propagate. -/
def getstate (qtNs qeventNs : Namespace) (ws : List QObject) (pos : List Nat)
    (e : QEventObj) : Except SerErr (List PathElement × SerializedEvent) :=
  match serialize_object ws pos with
  | none => .error .valueError
  | some p =>
    match serialize_event qtNs qeventNs e with
    | .ok se => .ok (p, se)
    | .error err => .error err

/-- `EventRecorder.eventFilter(obj, event)`: drop non-spontaneous events at
once; otherwise the debug log line evaluates `EventType[event.type()]`
(a `KeyError` for an undeclared type code), and the event's state is
appended to the in-memory log exactly when its type is in
`QEVENT_EVENTS`; the filter always answers `False` (not handled). -/
def eventFilter (qtNs qeventNs : Namespace) (ws : List QObject)
    (lg : List (List PathElement × SerializedEvent)) (pos : List Nat)
    (e : QEventObj) :
    Except SerErr (Bool × List (List PathElement × SerializedEvent)) :=
  if ¬ e.spontaneous then .ok (false, lg)
  else
    match EventType qeventNs e.etype with
    | none => .error .keyError
    | some _ =>
      if e.etype ∈ QEVENT_EVENTS then
        match getstate qtNs qeventNs ws pos e with
        | .ok entry => .ok (false, lg ++ [entry])
        | .error err => .error err
      else .ok (false, lg)

/-- What `Resolver.deserialize_event` does with a record: either it
constructs a plain `QEvent` around `eval` of `'QtCore.' + kind`, or it
`eval`s the expression `'QtGui.' + class + '(' + ', '.join(args) + ')'`
assembled from the stored strings; an empty record raises `IndexError`,
and a `'QEvent'` record of the wrong arity fails the `assert`. -/
inductive DeserResult : Type where
  | qeventOfEval (expr : String)
  | evalExpr (expr : String)
  | indexError
  | assertionError
deriving DecidableEq, Repr

/-- `Resolver.deserialize_event(event)`: reconstruct an event from the
persisted record by evaluating text assembled from the record's strings
(the two `eval` sites of the source, lines 301 and 303). -/
def deserialize_event (event : List String) : DeserResult :=
  match event with
  | [] => .indexError
  | e0 :: rest =>
    if e0 = "QEvent" then
      if rest.length = 1 then .qeventOfEval ("QtCore." ++ rest.headD "")
      else .assertionError
    else .evalExpr ("QtGui." ++ e0 ++ "(" ++ pyJoin ", " rest ++ ")")

/-- Split a character list on a separator character (Python
`str.split(sep)` semantics: `n` separators yield `n + 1` parts). -/
def splitOnChar (sep : Char) : List Char → List (List Char)
  | [] => [[]]
  | c :: cs =>
    match splitOnChar sep cs with
    | [] => [[c]]
    | p :: ps => if c = sep then [] :: p :: ps else (c :: p) :: ps

/-- Modelled from the spec: resolve one `"Namespace.Key"` text back to the
declared member's integer value by namespace-plus-name lookup (the
repository contains no inverse resolver — its deserialize path `eval`s the
text — so §4.1's required `valueOfName` contract is modelled).  `none` is
the spec's `NameResolutionError` for an unknown name. -/
def parseName (base : Namespace) (part : List Char) : Option Int :=
  let pre := (base.nsname ++ ".").toList
  if part.take pre.length = pre then
    ((base.members.find? (fun m => m.name == String.mk (part.drop pre.length))).map
      (fun m => m.value))
  else none

/-- Modelled from the spec: `valueOfName` — parse `"Namespace.Key"` or
`"Namespace.KeyA|Namespace.KeyB"` back to the underlying integer by
namespace+name lookup and bitwise-or accumulation; unknown names fail
(`NameResolutionError`, modelled as `.error ()`). -/
def valueOfName (base : Namespace) (s : String) : Except Unit Int :=
  (splitOnChar '|' s.toList).foldlM
    (fun acc part =>
      match parseName base part with
      | some v => .ok (Int.lor acc v)
      | none => .error ()) 0

/-- Numeric value of a decimal digit character, `none` otherwise. -/
def charDigit (c : Char) : Option Nat :=
  if '0' ≤ c ∧ c ≤ '9' then some (c.toNat - '0'.toNat) else none

/-- Straightforward parse of a non-empty all-digit character list. -/
def parseDigits : List Char → Option Nat
  | [] => none
  | cs => cs.foldl (fun acc c => acc.bind (fun a => (charDigit c).map (fun d => a * 10 + d))) (some 0)

/-- Straightforward parse of Python's `str` of an `int`: an optional
leading `'-'`, then decimal digits. -/
def parseInt (s : String) : Option Int :=
  match s.toList with
  | [] => none
  | c :: rest =>
    if c = '-' then (parseDigits rest).map (fun n => -(n : Int))
    else (parseDigits (c :: rest)).map (fun n => (n : Int))

/-- Straightforward parse of Python's `str` of a `bool`. -/
def parseBool (s : String) : Option Bool :=
  if s = "True" then some true else if s = "False" then some false else none

/-! ### Foundations for the enum/flag resolver -/

lemma flagsMeasure_lt {value : Int} {k : Nat}
    (h : ((2 ^ k : Nat) : Int) ≤ value) :
    (value + 1 - ((2 ^ (k + 1) : Nat) : Int)).toNat
      < (value + 1 - ((2 ^ k : Nat) : Int)).toNat := by
  have h1 : (1 : Nat) ≤ 2 ^ k := Nat.one_le_two_pow
  have h2 : (2 ^ (k + 1) : Nat) = 2 ^ k + 2 ^ k := by rw [pow_succ]; omega
  rw [h2]
  generalize (2 ^ k : Nat) = m at *
  omega

lemma flagsLoop_unfold (base : Namespace) (klass : String) (value : Int) (k : Nat) :
    flagsLoop base klass value k =
      if ((2 ^ k : Nat) : Int) ≤ value then
        (if Int.land value ((2 ^ k : Nat) : Int) ≠ 0 then [_qenum_key base ((2 ^ k : Nat) : Int) klass] else [])
          ++ flagsLoop base klass value (k + 1)
      else [] := by
  rw [flagsLoop]
  exact dite_eq_ite

lemma flagsLoopFuel_spec (base : Namespace) (klass : String) :
    ∀ (fuel : Nat) (value : Int) (k : Nat),
      (value + 1 - ((2 ^ k : Nat) : Int)).toNat < fuel →
      flagsLoopFuel base klass fuel value k = some (flagsLoop base klass value k) := by
  intro fuel
  induction fuel with
  | zero => intro value k h; omega
  | succ f ih =>
    intro value k h
    rw [flagsLoopFuel, flagsLoop_unfold]
    by_cases hc : ((2 ^ k : Nat) : Int) ≤ value
    · rw [if_pos hc, if_pos hc, ih value (k + 1) (by
        have := flagsMeasure_lt hc
        omega)]
      rfl
    · rw [if_neg hc, if_neg hc]

/-- Induction along the iterations of the `while mask <= value` loop. -/
lemma flags_induction (value : Int) (P : Nat → Prop)
    (base_case : ∀ k, ¬ ((2 ^ k : Nat) : Int) ≤ value → P k)
    (step : ∀ k, ((2 ^ k : Nat) : Int) ≤ value → P (k + 1) → P k) :
    ∀ k, P k := by
  have main : ∀ (M : Nat) (k : Nat),
      (value + 1 - ((2 ^ k : Nat) : Int)).toNat ≤ M → P k := by
    intro M
    induction M with
    | zero =>
      intro k h
      by_cases hc : ((2 ^ k : Nat) : Int) ≤ value
      · exfalso; omega
      · exact base_case k hc
    | succ M ih =>
      intro k h
      by_cases hc : ((2 ^ k : Nat) : Int) ≤ value
      · exact step k hc (ih (k + 1) (by have := flagsMeasure_lt hc; omega))
      · exact base_case k hc
  intro k
  exact main (value + 1 - ((2 ^ k : Nat) : Int)).toNat k le_rfl

/-- Proof-side mirror of the `_qflags_key` loop: the bit positions at or
above `k` that are set in `value` and visited by the loop, ascending. -/
def bitsGe (value : Int) (k : Nat) : List Nat :=
  if ((2 ^ k : Nat) : Int) ≤ value then
    (if Int.land value ((2 ^ k : Nat) : Int) ≠ 0 then [k] else []) ++ bitsGe value (k + 1)
  else []
termination_by (value + 1 - ((2 ^ k : Nat) : Int)).toNat
decreasing_by exact flagsMeasure_lt (by assumption)

lemma bitsGe_unfold (value : Int) (k : Nat) :
    bitsGe value k =
      if ((2 ^ k : Nat) : Int) ≤ value then
        (if Int.land value ((2 ^ k : Nat) : Int) ≠ 0 then [k] else []) ++ bitsGe value (k + 1)
      else [] := by
  rw [bitsGe]

/-- The loop body only looks at the mask bit: its collected keys are the
enum keys of the visited set bits. -/
lemma flagsLoop_eq_map (base : Namespace) (klass : String) (value : Int) :
    ∀ k, flagsLoop base klass value k
      = (bitsGe value k).map (fun i => _qenum_key base ((2 ^ i : Nat) : Int) klass) := by
  refine flags_induction value _ ?_ ?_
  · intro k hc
    rw [flagsLoop_unfold, bitsGe_unfold, if_neg hc, if_neg hc]
    rfl
  · intro k hc ih
    rw [flagsLoop_unfold, bitsGe_unfold, if_pos hc, if_pos hc, List.map_append, ih]
    by_cases hb : Int.land value ((2 ^ k : Nat) : Int) ≠ 0
    · rw [if_pos hb, if_pos hb]; rfl
    · rw [if_neg hb, if_neg hb]; rfl

lemma land_natCast_two_pow_ne (n : Nat) (i : Nat) :
    Int.land ((n : Nat) : Int) ((2 ^ i : Nat) : Int) ≠ 0 ↔ n.testBit i := by
  have h : Int.land ((n : Nat) : Int) ((2 ^ i : Nat) : Int) = ((n &&& 2 ^ i : Nat) : Int) := rfl
  rw [h, Nat.and_two_pow]
  cases hb : n.testBit i
  · simp
  · simp only [Bool.toNat_true, one_mul, ne_eq]
    have h1 : (1 : Nat) ≤ 2 ^ i := Nat.one_le_two_pow
    refine iff_of_true ?_ (by simp)
    intro hz
    have h2 : (2 ^ i : Nat) = 0 := by exact_mod_cast hz
    omega

/-- Membership in the visited-set-bits list. -/
lemma mem_bitsGe (n : Nat) :
    ∀ k i, i ∈ bitsGe ((n : Nat) : Int) k ↔ (k ≤ i ∧ n.testBit i) := by
  refine flags_induction ((n : Nat) : Int) _ ?_ ?_
  · intro k hc i
    rw [bitsGe_unfold, if_neg hc]
    simp only [List.not_mem_nil, false_iff, not_and]
    intro hki hbit
    have hn2 : (n : Int) < ((2 ^ k : Nat) : Int) := by omega
    have hlt : n < 2 ^ k := by exact_mod_cast hn2
    have hlt2 : n < 2 ^ i := lt_of_lt_of_le hlt (Nat.pow_le_pow_right (by omega) hki)
    rw [Nat.testBit_lt_two_pow hlt2] at hbit
    exact Bool.false_ne_true hbit
  · intro k hc ih i
    rw [bitsGe_unfold, if_pos hc]
    by_cases hb : Int.land ((n : Nat) : Int) ((2 ^ k : Nat) : Int) ≠ 0
    · rw [if_pos hb]
      simp only [List.cons_append, List.nil_append, List.mem_cons, ih]
      rw [land_natCast_two_pow_ne] at hb
      constructor
      · rintro (rfl | ⟨h1, h2⟩)
        · exact ⟨le_refl _, hb⟩
        · exact ⟨by omega, h2⟩
      · rintro ⟨h1, h2⟩
        by_cases hik : i = k
        · exact Or.inl hik
        · exact Or.inr ⟨by omega, h2⟩
    · rw [if_neg hb]
      simp only [List.nil_append, ih]
      rw [land_natCast_two_pow_ne] at hb
      simp only [Bool.not_eq_true] at hb
      constructor
      · rintro ⟨h1, h2⟩
        exact ⟨by omega, h2⟩
      · rintro ⟨h1, h2⟩
        refine ⟨?_, h2⟩
        by_cases hik : i = k
        · subst hik; rw [h2] at hb; exact absurd hb (by simp)
        · omega

lemma testBit_foldl_or (l : List Nat) :
    ∀ (acc t : Nat), ((l.foldl (fun a i => a ||| 2 ^ i) acc).testBit t)
      = (acc.testBit t || l.any (fun i => i == t)) := by
  induction l with
  | nil => intro acc t; simp
  | cons x xs ih =>
    intro acc t
    simp only [List.foldl_cons, List.any_cons, ih]
    rw [Nat.testBit_lor, Nat.testBit_two_pow]
    cases hxt : (x == t)
    · simp only [beq_eq_false_iff_ne, ne_eq] at hxt
      simp [hxt]
    · simp only [beq_iff_eq] at hxt
      simp [hxt]

lemma orFold_bitsGe (n : Nat) :
    ((bitsGe ((n : Nat) : Int) 0).foldl (fun a i => a ||| 2 ^ i) 0) = n := by
  apply Nat.eq_of_testBit_eq
  intro t
  rw [testBit_foldl_or]
  simp only [Nat.zero_testBit, Bool.false_or]
  by_cases ht : t ∈ bitsGe ((n : Nat) : Int) 0
  · have hbt := ((mem_bitsGe n 0 t).mp ht).2
    rw [hbt]
    exact List.any_eq_true.mpr ⟨t, ht, by simp⟩
  · have hbt : n.testBit t = false := by
      cases hb : n.testBit t
      · rfl
      · exact absurd ((mem_bitsGe n 0 t).mpr ⟨Nat.zero_le t, hb⟩) ht
    rw [hbt]
    cases hany : (bitsGe ((n : Nat) : Int) 0).any (fun i => i == t)
    · rfl
    · obtain ⟨i, hi, hit⟩ := List.any_eq_true.mp hany
      simp only [beq_iff_eq] at hit
      subst hit
      exact absurd hi ht

lemma bitsGe_ne_nil {n : Nat} (hn : 0 < n) : bitsGe ((n : Nat) : Int) 0 ≠ [] := by
  intro h
  have hall : ∀ t, n.testBit t = false := by
    intro t
    cases hbt : n.testBit t
    · rfl
    · have := (mem_bitsGe n 0 t).mpr ⟨Nat.zero_le t, hbt⟩
      rw [h] at this
      exact absurd this (List.not_mem_nil t)
  have : n = 0 := Nat.eq_of_testBit_eq (by intro i; rw [hall i, Nat.zero_testBit])
  omega

/-! ### Split/join round trip for the name lists -/

lemma splitOnChar_ne_nil (sep : Char) (l : List Char) : splitOnChar sep l ≠ [] := by
  induction l with
  | nil => simp [splitOnChar]
  | cons c cs ih =>
    simp only [splitOnChar]
    cases h : splitOnChar sep cs with
    | nil => simp
    | cons p ps => by_cases hc : c = sep <;> simp [hc]

lemma splitOnChar_no_sep (sep : Char) (p : List Char) (h : sep ∉ p) :
    splitOnChar sep p = [p] := by
  induction p with
  | nil => rfl
  | cons c cs ih =>
    have hcs : sep ∉ cs := fun hm => h (List.mem_cons_of_mem _ hm)
    have hc : ¬ c = sep := fun he => h (by rw [he]; exact List.mem_cons_self _ _)
    simp only [splitOnChar, ih hcs]
    rw [if_neg hc]

lemma splitOnChar_cons (sep c : Char) (cs : List Char) :
    splitOnChar sep (c :: cs) =
      match splitOnChar sep cs with
      | [] => [[c]]
      | p :: ps => if c = sep then [] :: p :: ps else (c :: p) :: ps := rfl

lemma splitOnChar_append (sep : Char) (p rest : List Char) (h : sep ∉ p) :
    splitOnChar sep (p ++ sep :: rest) = p :: splitOnChar sep rest := by
  induction p with
  | nil =>
    rw [List.nil_append, splitOnChar_cons]
    cases hr : splitOnChar sep rest with
    | nil => exact absurd hr (splitOnChar_ne_nil sep rest)
    | cons q qs => simp
  | cons c cs ih =>
    have hcs : sep ∉ cs := fun hm => h (List.mem_cons_of_mem _ hm)
    have hc : ¬ c = sep := fun he => h (by rw [he]; exact List.mem_cons_self _ _)
    rw [List.cons_append, splitOnChar_cons, ih hcs]
    simp [hc]

lemma split_intercalate (sep : Char) :
    ∀ parts : List (List Char), parts ≠ [] → (∀ p ∈ parts, sep ∉ p) →
      splitOnChar sep (intercalateL [sep] parts) = parts := by
  intro parts
  induction parts with
  | nil => intro h _; exact absurd rfl h
  | cons p ps ih =>
    intro _ hall
    cases ps with
    | nil =>
      simp only [intercalateL]
      exact splitOnChar_no_sep sep p (hall p (by simp))
    | cons q qs =>
      have hstep : intercalateL [sep] (p :: q :: qs)
          = p ++ sep :: intercalateL [sep] (q :: qs) := by
        simp [intercalateL]
      rw [hstep, splitOnChar_append sep p _ (hall p (by simp)),
        ih (by simp) (fun r hr => hall r (by simp [hr]))]

lemma toList_append (s t : String) : (s ++ t).toList = s.toList ++ t.toList :=
  String.data_append s t

lemma qenum_key_toList (base : Namespace) (v : Int) (sing : String) (hsing : sing ≠ "int")
    (m : EnumMember)
    (hm : base.members.find? (fun mm => mm.cls == sing && mm.value == v) = some m) :
    (_qenum_key base v sing).toList = (base.nsname ++ ".").toList ++ m.name.toList := by
  rw [_qenum_key, if_neg hsing, hm]
  exact toList_append _ _

lemma qenum_key_ne_empty (base : Namespace) (v : Int) (sing : String) (hsing : sing ≠ "int")
    (m : EnumMember)
    (hm : base.members.find? (fun mm => mm.cls == sing && mm.value == v) = some m) :
    _qenum_key base v sing ≠ "" := by
  intro h
  have h2 := congrArg String.toList h
  rw [qenum_key_toList base v sing hsing m hm, toList_append] at h2
  simp at h2

lemma parseName_qenum (base : Namespace) (v : Int) (sing : String) (hsing : sing ≠ "int")
    (m : EnumMember)
    (hm : base.members.find? (fun mm => mm.cls == sing && mm.value == v) = some m)
    (huniq : ∀ m1 ∈ base.members, ∀ m2 ∈ base.members, m1.name = m2.name → m1.value = m2.value) :
    parseName base ((_qenum_key base v sing).toList) = some m.value := by
  rw [qenum_key_toList base v sing hsing m hm, parseName]
  rw [if_pos (List.take_left _ _), List.drop_left]
  have hmk : String.mk m.name.toList = m.name := rfl
  rw [hmk]
  have hmem : m ∈ base.members := List.mem_of_find?_eq_some hm
  have hsome : (base.members.find? (fun mm => mm.name == m.name)).isSome :=
    List.find?_isSome.mpr ⟨m, hmem, by simp⟩
  obtain ⟨m', hm'⟩ := Option.isSome_iff_exists.mp hsome
  have hmem' : m' ∈ base.members := List.mem_of_find?_eq_some hm'
  have hname' : m'.name = m.name := by
    have := List.find?_some hm'
    simpa using this
  rw [hm']
  simp only [Option.map_some']
  rw [huniq m' hmem' m hmem hname']

lemma foldlM_or_parse (base : Namespace) (sing : String) :
    ∀ bs : List Nat,
      (∀ i ∈ bs, parseName base ((_qenum_key base ((2 ^ i : Nat) : Int) sing).toList)
        = some ((2 ^ i : Nat) : Int)) →
      ∀ accN : Nat,
        List.foldlM
          (fun acc part =>
            match parseName base part with
            | some v => Except.ok (Int.lor acc v)
            | none => Except.error ())
          ((accN : Nat) : Int)
          ((bs.map (fun i => _qenum_key base ((2 ^ i : Nat) : Int) sing)).map String.toList)
        = Except.ok (((bs.foldl (fun a i => a ||| 2 ^ i) accN : Nat) : Int)) := by
  intro bs
  induction bs with
  | nil => intro _ accN; rfl
  | cons i is ih =>
    intro H accN
    simp only [List.map_cons, List.foldlM_cons]
    rw [H i (by simp)]
    have hlor : Int.lor ((accN : Nat) : Int) ((2 ^ i : Nat) : Int)
        = (((accN ||| 2 ^ i : Nat)) : Int) := rfl
    simp only [hlor]
    have := ih (fun j hj => H j (by simp [hj])) (accN ||| 2 ^ i)
    simpa using this

/-- General flag round-trip: a positive bitmask all of whose set bits are
declared single-bit members of the (singular) enum class encodes with
`_qflags_key` and decodes with `valueOfName` back to itself, provided the
namespace is `'|'`-clean and member names determine values. -/
lemma flag_roundtrip_general (base : Namespace) (klass sing : String) (n : Nat)
    (hs : sing = (if pyEndsWith klass "s" then pyDropLast klass else klass))
    (hn : 0 < n) (hkl : klass ≠ "int") (hsing : sing ≠ "int")
    (hdecl : ∀ i, n.testBit i = true →
      (base.members.find? (fun mm => mm.cls == sing && mm.value == ((2 ^ i : Nat) : Int))).isSome)
    (hbar_ns : '|' ∉ base.nsname.toList)
    (hbar_mem : ∀ m ∈ base.members, '|' ∉ m.name.toList)
    (huniq : ∀ m1 ∈ base.members, ∀ m2 ∈ base.members, m1.name = m2.name → m1.value = m2.value) :
    valueOfName base (_qflags_key base ((n : Nat) : Int) klass) = .ok ((n : Nat) : Int) := by
  have hn0 : ((n : Nat) : Int) ≠ 0 := by exact_mod_cast hn.ne'
  -- the per-bit members
  have hmem_of : ∀ i ∈ bitsGe ((n : Nat) : Int) 0,
      ∃ m, base.members.find? (fun mm => mm.cls == sing && mm.value == ((2 ^ i : Nat) : Int)) = some m := by
    intro i hi
    have hbit := ((mem_bitsGe n 0 i).mp hi).2
    exact Option.isSome_iff_exists.mp (hdecl i hbit)
  -- step 1: reduce _qflags_key to the joined key list
  rw [_qflags_key, if_neg hkl]
  rw [← hs]
  show valueOfName base
      (pyJoin "|"
        (List.filter (fun s => s != "")
          (if flagsLoop base sing ((n : Nat) : Int) 0 = [] ∧ ((n : Nat) : Int) = 0
            then [_qenum_key base 0 sing]
            else flagsLoop base sing ((n : Nat) : Int) 0)))
    = Except.ok ((n : Nat) : Int)
  rw [flagsLoop_eq_map]
  set keys := (bitsGe ((n : Nat) : Int) 0).map
    (fun i => _qenum_key base ((2 ^ i : Nat) : Int) sing) with hkeys
  rw [if_neg (fun hcontra => hn0 hcontra.2)]
  -- step 2: the filter keeps every key
  have hne_of : ∀ s ∈ keys, (s != "") = true := by
    intro s hsmem
    rw [hkeys] at hsmem
    obtain ⟨i, hi, rfl⟩ := List.mem_map.mp hsmem
    obtain ⟨m, hm⟩ := hmem_of i hi
    exact bne_iff_ne.mpr (qenum_key_ne_empty base _ sing hsing m hm)
  rw [List.filter_eq_self.mpr hne_of]
  -- step 3: split the joined string back into the keys
  rw [valueOfName]
  have hjoin : (pyJoin "|" keys).toList = intercalateL ['|'] (keys.map String.toList) := rfl
  rw [hjoin]
  have hne : keys.map String.toList ≠ [] := by
    rw [hkeys]
    simp only [ne_eq, List.map_eq_nil_iff]
    exact bitsGe_ne_nil hn
  have hnosep : ∀ p ∈ keys.map String.toList, '|' ∉ p := by
    intro p hp
    obtain ⟨s, hsmem, rfl⟩ := List.mem_map.mp hp
    rw [hkeys] at hsmem
    obtain ⟨i, hi, rfl⟩ := List.mem_map.mp hsmem
    obtain ⟨m, hm⟩ := hmem_of i hi
    rw [qenum_key_toList base _ sing hsing m hm, toList_append]
    intro hbar
    rcases List.mem_append.mp hbar with hbar | hbar
    · rcases List.mem_append.mp hbar with hbar | hbar
      · exact hbar_ns hbar
      · exact absurd hbar (by decide)
    · exact hbar_mem m (List.mem_of_find?_eq_some hm) hbar
  rw [split_intercalate '|' (keys.map String.toList) hne hnosep]
  -- step 4: parse each key and accumulate the bits
  have hzero : (0 : Int) = ((0 : Nat) : Int) := rfl
  rw [hkeys, hzero]
  rw [foldlM_or_parse base sing (bitsGe ((n : Nat) : Int) 0) ?hparse 0]
  · rw [orFold_bitsGe]
  case hparse =>
    intro i hi
    obtain ⟨m, hm⟩ := hmem_of i hi
    have hval : m.value = ((2 ^ i : Nat) : Int) := by
      have := List.find?_some hm
      simp only [Bool.and_eq_true, beq_iff_eq] at this
      exact this.2
    rw [parseName_qenum base _ sing hsing m hm huniq, hval]

/-- Zeta-expanded form of `_qflags_key` for a non-`int` class. -/
lemma qflags_key_expand (base : Namespace) (value : Int) (klass sing : String)
    (hkl : klass ≠ "int")
    (hs : sing = (if pyEndsWith klass "s" then pyDropLast klass else klass)) :
    _qflags_key base value klass
      = pyJoin "|" ((if flagsLoop base sing value 0 = [] ∧ value = 0
          then [_qenum_key base 0 sing]
          else flagsLoop base sing value 0).filter (fun s => s != "")) := by
  rw [_qflags_key, if_neg hkl, ← hs]

/-- A sample of the `QtCore.Qt` namespace: the mouse-button enum (with its
zero member), a keyboard modifier, and two key constants, with PyQt4's
numeric values. -/
def qtNsC : Namespace :=
  ⟨"Qt",
   [⟨"NoButton", "MouseButton", 0⟩,
    ⟨"LeftButton", "MouseButton", 1⟩,
    ⟨"RightButton", "MouseButton", 2⟩,
    ⟨"MidButton", "MouseButton", 4⟩,
    ⟨"NoModifier", "KeyboardModifier", 0⟩,
    ⟨"ShiftModifier", "KeyboardModifier", 33554432⟩,
    ⟨"Key_A", "Key", 65⟩,
    ⟨"Key_Escape", "Key", 16777216⟩]⟩

/-- A sample of the `QtCore.QEvent` namespace: some `Type` members. -/
def qeventNsC : Namespace :=
  ⟨"QEvent",
   [⟨"MouseButtonPress", "Type", 2⟩,
    ⟨"MouseButtonRelease", "Type", 3⟩,
    ⟨"KeyPress", "Type", 6⟩,
    ⟨"Paint", "Type", 12⟩,
    ⟨"Move", "Type", 13⟩]⟩

lemma testBit_three {i : Nat} (h : (3 : Nat).testBit i = true) : i = 0 ∨ i = 1 := by
  match i with
  | 0 => exact Or.inl rfl
  | 1 => exact Or.inr rfl
  | i + 2 =>
    exfalso
    have h4 : (2 ^ 2 : Nat) ≤ 2 ^ (i + 2) := Nat.pow_le_pow_right (by omega) (by omega)
    have hlt : (3 : Nat) < 2 ^ (i + 2) := by omega
    rw [Nat.testBit_lt_two_pow hlt] at h
    exact Bool.false_ne_true h

/-- C10: for every integer bitmask value (including `0` and negative
values) and every starting bit, the `while mask <= value` loop of
`_qflags_key` — mask starting at `2 ^ k` and strictly doubling —
terminates: some finite fuel makes the step-counted loop reach the exit
with exactly the value of the total loop function. -/
theorem c10_flags_loop_terminates :
    ∀ (base : Namespace) (klass : String) (value : Int) (k : Nat),
      ∃ fuel, flagsLoopFuel base klass fuel value k = some (flagsLoop base klass value k) := by
  intro base klass value k
  exact ⟨(value + 1 - ((2 ^ k : Nat) : Int)).toNat + 1,
    flagsLoopFuel_spec base klass _ value k (by omega)⟩

/-- C4: flag round-trip.  Any positive bitmask whose set bits are all
declared single-bit members of the singular enum class (in a namespace
with `'|'`-free names where a name determines its value) is encoded by
`_qflags_key` and decoded by `valueOfName` back to itself; concretely,
`LeftButton|RightButton = 3` encodes to `"Qt.LeftButton|Qt.RightButton"`
(ascending bit order) and decodes back to `3`. -/
theorem c4_flag_roundtrip :
    (∀ (base : Namespace) (klass sing : String) (n : Nat),
      sing = (if pyEndsWith klass "s" then pyDropLast klass else klass) →
      0 < n → klass ≠ "int" → sing ≠ "int" →
      (∀ i, n.testBit i = true →
        (base.members.find? (fun mm => mm.cls == sing && mm.value == ((2 ^ i : Nat) : Int))).isSome) →
      '|' ∉ base.nsname.toList →
      (∀ m ∈ base.members, '|' ∉ m.name.toList) →
      (∀ m1 ∈ base.members, ∀ m2 ∈ base.members, m1.name = m2.name → m1.value = m2.value) →
      valueOfName base (_qflags_key base ((n : Nat) : Int) klass) = .ok ((n : Nat) : Int))
    ∧ _qflags_key qtNsC 3 "MouseButtons" = "Qt.LeftButton|Qt.RightButton"
    ∧ valueOfName qtNsC "Qt.LeftButton|Qt.RightButton" = .ok 3 := by
  have hloop3 : flagsLoop qtNsC "MouseButton" 3 0 = ["Qt.LeftButton", "Qt.RightButton"] := by
    have h3 := flagsLoopFuel_spec qtNsC "MouseButton" 4 3 0 (by decide)
    have h1 : flagsLoopFuel qtNsC "MouseButton" 4 3 0
        = some ["Qt.LeftButton", "Qt.RightButton"] := by decide
    rw [h1] at h3
    exact (Option.some.inj h3).symm
  refine ⟨?_, ?_, ?_⟩
  · intro base klass sing n hs hn hkl hsing hdecl hbar_ns hbar_mem huniq
    exact flag_roundtrip_general base klass sing n hs hn hkl hsing hdecl hbar_ns hbar_mem huniq
  · rw [qflags_key_expand qtNsC 3 "MouseButtons" "MouseButton" (by decide) (by decide), hloop3]
    rfl
  · rfl

/-- Witness for C4 at the concrete input: mask `3` over the Qt mouse-button
flags type round-trips. -/
theorem c4_flag_roundtrip_witness :
    valueOfName qtNsC (_qflags_key qtNsC ((3 : Nat) : Int) "MouseButtons")
      = .ok ((3 : Nat) : Int) :=
  c4_flag_roundtrip.1 qtNsC "MouseButtons" "MouseButton" 3 (by decide) (by decide)
    (by decide) (by decide)
    (fun i hbit => by
      rcases testBit_three hbit with rfl | rfl
      · decide
      · decide)
    (by decide) (by decide) (by decide)

/-- C8: zero-value naming.  Resolving bitmask `0` through `_qflags_key`
reduces to the single `_qenum_key` call at value `0` against the singular
enum class, and when a zero-valued member is declared there the result is
that namespaced member name — never the empty string. -/
theorem c8_zero_value_naming (base : Namespace) (klass sing : String)
    (hs : sing = (if pyEndsWith klass "s" then pyDropLast klass else klass))
    (hkl : klass ≠ "int") (hsing : sing ≠ "int") (m : EnumMember)
    (hm : base.members.find? (fun mm => mm.cls == sing && mm.value == 0) = some m) :
    _qflags_key base 0 klass = _qenum_key base 0 sing
      ∧ _qenum_key base 0 sing ≠ "" := by
  have hq := qenum_key_ne_empty base 0 sing hsing m hm
  constructor
  · have hloop : flagsLoop base sing 0 0 = [] := by
      rw [flagsLoop_unfold, if_neg (by decide)]
    rw [qflags_key_expand base 0 klass sing hkl hs, hloop, if_pos ⟨rfl, rfl⟩]
    have hfilter : List.filter (fun s => s != "") [_qenum_key base 0 sing]
        = [_qenum_key base 0 sing] := by
      rw [List.filter_eq_self]
      intro a ha
      rw [List.mem_singleton] at ha
      subst ha
      exact bne_iff_ne.mpr hq
    rw [hfilter]
    rfl
  · exact hq

/-- Witness for C8: `Qt.MouseButtons` declares `NoButton = 0`, and bitmask
`0` resolves to `"Qt.NoButton"`. -/
theorem c8_zero_value_naming_witness :
    _qflags_key qtNsC 0 "MouseButtons" = _qenum_key qtNsC 0 "MouseButton"
      ∧ _qenum_key qtNsC 0 "MouseButton" ≠ "" :=
  c8_zero_value_naming qtNsC "MouseButtons" "MouseButton" (by decide) (by decide)
    (by decide) ⟨"NoButton", "MouseButton", 0⟩ (by decide)

/-! ### Primitive stringification is invertible -/

lemma charDigit_digitChar {d : Nat} (h : d < 10) :
    charDigit (Nat.digitChar d) = some d := by
  interval_cases d <;> decide

lemma digitChar_ne_minus {d : Nat} (h : d < 10) : Nat.digitChar d ≠ '-' := by
  interval_cases d <;> decide

lemma natToChars_head (n : Nat) :
    ∃ d cs, natToChars n = Nat.digitChar d :: cs ∧ d < 10 := by
  induction n using Nat.strong_induction_on with
  | _ n ih =>
    rw [natToChars]
    by_cases h : n < 10
    · rw [if_pos h]
      exact ⟨n, [], rfl, h⟩
    · rw [if_neg h]
      obtain ⟨d, cs, hnc, hd⟩ := ih (n / 10) (Nat.div_lt_self (by omega) (by omega))
      exact ⟨d, cs ++ [Nat.digitChar (n % 10)], by rw [hnc]; rfl, hd⟩

lemma parseDigits_cons (c : Char) (cs : List Char) :
    parseDigits (c :: cs)
      = (c :: cs).foldl
          (fun acc ch => acc.bind (fun a => (charDigit ch).map (fun d => a * 10 + d)))
          (some 0) := rfl

lemma parseDigits_append (l : List Char) (hl : l ≠ []) (c : Char) :
    parseDigits (l ++ [c])
      = (parseDigits l).bind (fun a => (charDigit c).map (fun d => a * 10 + d)) := by
  cases l with
  | nil => exact absurd rfl hl
  | cons x xs =>
    rw [List.cons_append, parseDigits_cons, parseDigits_cons, ← List.cons_append,
      List.foldl_append]
    rfl

lemma natToChars_ne_nil (n : Nat) : natToChars n ≠ [] := by
  obtain ⟨d, cs, hnc, _⟩ := natToChars_head n
  rw [hnc]
  exact List.cons_ne_nil _ _

lemma parseDigits_natToChars (n : Nat) : parseDigits (natToChars n) = some n := by
  induction n using Nat.strong_induction_on with
  | _ n ih =>
    rw [natToChars]
    by_cases h : n < 10
    · rw [if_pos h, parseDigits_cons]
      simp [charDigit_digitChar h]
    · rw [if_neg h,
        parseDigits_append (natToChars (n / 10)) (natToChars_ne_nil _) _,
        ih (n / 10) (Nat.div_lt_self (by omega) (by omega)),
        charDigit_digitChar (Nat.mod_lt n (by omega))]
      show some (n / 10 * 10 + n % 10) = some n
      exact congrArg some (by omega)

lemma toList_mk (l : List Char) : (String.mk l).toList = l := rfl

lemma parseInt_mk_neg (l : List Char) :
    parseInt (String.mk ('-' :: l)) = (parseDigits l).map (fun m => -(m : Int)) := by
  simp only [parseInt, toList_mk]
  simp

lemma parseInt_mk_head (c : Char) (hc : c ≠ '-') (cs : List Char) :
    parseInt (String.mk (c :: cs)) = (parseDigits (c :: cs)).map (fun m => (m : Int)) := by
  simp only [parseInt, toList_mk]
  rw [if_neg hc]

lemma parseInt_pyIntStr (n : Int) : parseInt (pyIntStr n) = some n := by
  rw [pyIntStr]
  by_cases h : n < 0
  · rw [if_pos h, parseInt_mk_neg, parseDigits_natToChars]
    show some (-(((-n).toNat : Nat) : Int)) = some n
    exact congrArg some (by omega)
  · rw [if_neg h]
    obtain ⟨d, cs, hnc, hd⟩ := natToChars_head n.toNat
    rw [hnc, parseInt_mk_head _ (digitChar_ne_minus hd) _, ← hnc, parseDigits_natToChars]
    show some ((n.toNat : Nat) : Int) = some n
    exact congrArg some (Int.toNat_of_nonneg (by omega))

/-- C9 (amended): for every listed event attribute other than the `key`
attribute, a primitive `int` value is stringified directly with `str` and
straightforward parsing inverts it exactly; `str` and `bool` values are
likewise stringified directly and invertibly (`key`-attribute integers are
instead encoded through the `QT_KEYS` symbolic table). -/
theorem c9_primitive_serialization (qtNs : Namespace) :
    (∀ (n : Int) (attr : String), attr ≠ "key" →
      _serialize_value qtNs (.int n) attr = .ok (.s (pyIntStr n))
        ∧ parseInt (pyIntStr n) = some n)
    ∧ (∀ (s : String) (attr : String),
        _serialize_value qtNs (.str s) attr = .ok (.s s))
    ∧ (∀ (b : Bool) (attr : String),
        _serialize_value qtNs (.bool b) attr = .ok (.s (pyBoolStr b))
          ∧ parseBool (pyBoolStr b) = some b) := by
  refine ⟨?_, ?_, ?_⟩
  · intro n attr hattr
    constructor
    · simp only [_serialize_value]
      rw [if_neg hattr]
    · exact parseInt_pyIntStr n
  · intro s attr
    rfl
  · intro b attr
    exact ⟨rfl, by cases b <;> rfl⟩

/-- Counterexample to C9 as stated: the `key` attribute of a key event is
a listed attribute with a primitive integer value (`Qt.Key_A = 65`), yet
`_serialize_value` renders it as the symbolic `"Qt.Key_A"`, not as
`str(65) = "65"`, and straightforward integer parsing cannot invert it. -/
theorem c9_key_attribute_counterexample :
    _serialize_value qtNsC (.int 65) "key" = .ok (.s "Qt.Key_A")
      ∧ pyIntStr 65 = "65"
      ∧ SerValue.s "Qt.Key_A" ≠ SerValue.s "65"
      ∧ parseInt "Qt.Key_A" = none := by
  have h65 : pyIntStr 65 = "65" := by
    rw [pyIntStr, if_neg (by decide)]
    have h1 : natToChars (Int.toNat 65) = ['6', '5'] := by
      rw [show Int.toNat 65 = 65 from rfl, natToChars, if_neg (by decide),
        natToChars, if_pos (by decide)]
      decide
    rw [h1]
  exact ⟨by rfl, h65, by decide, by decide⟩

/-- Witness for C9 (amended) at a concrete input: the `count` attribute of
a key event with value `7`. -/
theorem c9_primitive_serialization_witness :
    _serialize_value qtNsC (.int 7) "count" = .ok (.s (pyIntStr 7))
      ∧ parseInt (pyIntStr 7) = some 7 :=
  (c9_primitive_serialization qtNsC).1 7 "count" (by decide)

/-- C2 (code behaviour): `deserialize_event` reconstructs every
non-`'QEvent'` record by `eval`-ing an expression assembled from the
stored strings — it is dynamic evaluation of persisted data, not a static
tagged-dispatch table. -/
theorem c2_deserialize_event_evals (cls : String) (args : List String)
    (h : cls ≠ "QEvent") :
    deserialize_event (cls :: args)
      = .evalExpr ("QtGui." ++ cls ++ "(" ++ pyJoin ", " args ++ ")") := by
  simp only [deserialize_event]
  rw [if_neg h]

/-- Witness for C2: a stored record whose strings flow verbatim into the
`eval`-ed expression. -/
theorem c2_deserialize_event_evals_witness :
    deserialize_event ["QMouseEvent", "maliciousPayload"]
      = .evalExpr "QtGui.QMouseEvent(maliciousPayload)" := by
  rw [c2_deserialize_event_evals "QMouseEvent" ["maliciousPayload"] (by decide)]
  rfl

/-! ### Degraded event serialization and the capture filter -/

/-- The listed attribute values that survive serialization, in order:
attributes whose `_serialize_value` raises are absent. -/
def serializedArgs (qtNs : Namespace) (e : QEventObj) (attrs : List String) :
    List SerValue :=
  attrs.filterMap (fun a =>
    (e.attrs.lookup a).bind (fun v =>
      match _serialize_value qtNs v a with
      | .ok sv => some sv
      | .error _ => none))

/-- A flags-valued attribute either serializes or raises exactly
`ValueError`. -/
lemma serialize_value_flags_cases (qtNs : Namespace) (n : Int) (cls a : String) :
    (∃ sv, _serialize_value qtNs (.flags n cls) a = .ok sv)
      ∨ _serialize_value qtNs (.flags n cls) a = .error .valueError := by
  simp only [_serialize_value]
  split
  · split
    · exact Or.inl ⟨_, rfl⟩
    · exact Or.inr rfl
  · exact Or.inr rfl

lemma serializeAttrs_eq (qtNs : Namespace) (e : QEventObj) :
    ∀ attrs : List String,
      (∀ a ∈ attrs, ∃ v, e.attrs.lookup a = some v ∧
        ((∃ sv, _serialize_value qtNs v a = .ok sv)
          ∨ _serialize_value qtNs v a = .error .valueError)) →
      serializeAttrs qtNs e attrs = .ok (serializedArgs qtNs e attrs) := by
  intro attrs
  induction attrs with
  | nil => intro _; rfl
  | cons a rest ih =>
    intro H
    obtain ⟨v, hv, hcase⟩ := H a (by simp)
    have hrest := ih (fun b hb => H b (by simp [hb]))
    simp only [serializeAttrs, serializedArgs, List.filterMap_cons, hv, Option.some_bind]
    rcases hcase with ⟨sv, hsv⟩ | hsv
    · rw [hsv, hrest]
      rfl
    · rw [hsv, hrest]
      rfl

/-- C6: degraded serialization.  Provided each listed attribute is present
and either serializes or raises exactly `ValueError` (the degraded case),
`serialize_event` always returns a record carrying the class tag and the
resolved kind tag, with precisely the serializable attribute values as
`args` (a failing attribute is omitted, the event is never dropped); an
event class absent from the static table yields an empty `args` list. -/
theorem c6_degraded_serialization (qtNs qeventNs : Namespace) (e : QEventObj)
    (hattrs : ∀ a ∈ (EVENT_ATTRIBUTES.lookup e.className).getD [],
      ∃ v, e.attrs.lookup a = some v ∧
        ((∃ sv, _serialize_value qtNs v a = .ok sv)
          ∨ _serialize_value qtNs v a = .error .valueError)) :
    serialize_event qtNs qeventNs e
      = .ok ⟨e.className, _qenum_key qeventNs e.etype "Type",
          serializedArgs qtNs e ((EVENT_ATTRIBUTES.lookup e.className).getD [])⟩
    ∧ (EVENT_ATTRIBUTES.lookup e.className = none →
        serializedArgs qtNs e ((EVENT_ATTRIBUTES.lookup e.className).getD []) = []) := by
  constructor
  · rw [serialize_event]
    rw [serializeAttrs_eq qtNs e _ hattrs]
  · intro hnone
    rw [hnone]
    rfl

/-- Witness for C6: an unlisted `QWheelEvent` still produces a record with
the class and kind tags and empty `args`; a `QMouseEvent` whose
`modifiers` flags value may fail to serialize still produces a record with
exactly the serializable attribute values. -/
theorem c6_degraded_serialization_witness :
    (serialize_event qtNsC qeventNsC ⟨"QWheelEvent", true, 31, []⟩
        = .ok ⟨"QWheelEvent", _qenum_key qeventNsC 31 "Type",
            serializedArgs qtNsC ⟨"QWheelEvent", true, 31, []⟩
              ((EVENT_ATTRIBUTES.lookup "QWheelEvent").getD [])⟩
      ∧ (EVENT_ATTRIBUTES.lookup "QWheelEvent" = none →
          serializedArgs qtNsC ⟨"QWheelEvent", true, 31, []⟩
            ((EVENT_ATTRIBUTES.lookup "QWheelEvent").getD []) = []))
    ∧ serialize_event qtNsC qeventNsC
        ⟨"QMouseEvent", true, 2,
         [("pos", .point 3 4), ("globalPos", .point 10 20),
          ("button", .enumv 1 "MouseButton"), ("buttons", .flags 3 "MouseButtons"),
          ("modifiers", .flags 5 "KeyboardModifiers")]⟩
        = .ok ⟨"QMouseEvent", _qenum_key qeventNsC 2 "Type",
            serializedArgs qtNsC
              ⟨"QMouseEvent", true, 2,
               [("pos", .point 3 4), ("globalPos", .point 10 20),
                ("button", .enumv 1 "MouseButton"), ("buttons", .flags 3 "MouseButtons"),
                ("modifiers", .flags 5 "KeyboardModifiers")]⟩
              ((EVENT_ATTRIBUTES.lookup "QMouseEvent").getD [])⟩ := by
  constructor
  · exact c6_degraded_serialization qtNsC qeventNsC ⟨"QWheelEvent", true, 31, []⟩
      (fun a ha => absurd ha (List.not_mem_nil a))
  · exact (c6_degraded_serialization qtNsC qeventNsC _
      (fun a ha => by
        fin_cases ha
        · exact ⟨.point 3 4, rfl, Or.inl ⟨.ellipsis, rfl⟩⟩
        · exact ⟨.point 10 20, rfl, Or.inl ⟨.ellipsis, rfl⟩⟩
        · exact ⟨.enumv 1 "MouseButton", rfl, Or.inl ⟨.s "Qt.LeftButton", by rfl⟩⟩
        · exact ⟨.flags 3 "MouseButtons", rfl,
            serialize_value_flags_cases qtNsC 3 "MouseButtons" "buttons"⟩
        · exact ⟨.flags 5 "KeyboardModifiers", rfl,
            serialize_value_flags_cases qtNsC 5 "KeyboardModifiers" "modifiers"⟩)).1

/-- C3: capture filter.  The filter always answers "not handled"
(`False`), and an entry is appended exactly for spontaneous events whose
type is in the `QEVENT_EVENTS` allow-list (with the event's type declared
in the `QEvent` namespace and its state serializable, as Qt guarantees for
system events): a non-spontaneous event and an allow-list miss leave the
log untouched, an allow-list hit appends exactly the event's state. -/
theorem c3_capture_filter (qtNs qeventNs : Namespace) (ws : List QObject)
    (lg : List (List PathElement × SerializedEvent)) (pos : List Nat)
    (e : QEventObj) :
    (¬ e.spontaneous → eventFilter qtNs qeventNs ws lg pos e = .ok (false, lg))
    ∧ (e.spontaneous → (EventType qeventNs e.etype).isSome →
        e.etype ∉ QEVENT_EVENTS →
        eventFilter qtNs qeventNs ws lg pos e = .ok (false, lg))
    ∧ (e.spontaneous → (EventType qeventNs e.etype).isSome →
        e.etype ∈ QEVENT_EVENTS →
        ∀ entry, getstate qtNs qeventNs ws pos e = .ok entry →
          eventFilter qtNs qeventNs ws lg pos e = .ok (false, lg ++ [entry])) := by
  refine ⟨?_, ?_, ?_⟩
  · intro h
    rw [eventFilter, if_pos h]
  · intro hs hdecl hnotin
    obtain ⟨nm, hnm⟩ := Option.isSome_iff_exists.mp hdecl
    rw [eventFilter, if_neg (by simp [hs]), hnm, if_neg hnotin]
  · intro hs hdecl hin entry hentry
    obtain ⟨nm, hnm⟩ := Option.isSome_iff_exists.mp hdecl
    rw [eventFilter, if_neg (by simp [hs]), hnm, if_pos hin, hentry]

/-- Witness for C3: a spontaneous paint event (type `12`, outside the
allow-list) is not recorded and not consumed; a spontaneous allow-listed
press event (type `2`) appends exactly its state and is not consumed. -/
theorem c3_capture_filter_witness :
    eventFilter qtNsC qeventNsC [] [] [] ⟨"QPaintEvent", true, 12, []⟩
        = .ok (false, [])
    ∧ eventFilter qtNsC qeventNsC [.node "QWidget" "" []] [] [0]
        ⟨"QWheelEvent", true, 2, []⟩
        = .ok (false,
            [([⟨0, "QWidget", ""⟩],
              ⟨"QWheelEvent", "QEvent.MouseButtonPress", []⟩)]) := by
  constructor
  · exact (c3_capture_filter qtNsC qeventNsC [] [] []
      ⟨"QPaintEvent", true, 12, []⟩).2.1 (by decide) (by decide) (by decide)
  · exact (c3_capture_filter qtNsC qeventNsC [.node "QWidget" "" []] [] [0]
      ⟨"QWheelEvent", true, 2, []⟩).2.2 (by decide) (by decide) (by decide)
      ([⟨0, "QWidget", ""⟩], ⟨"QWheelEvent", "QEvent.MouseButtonPress", []⟩) (by rfl)

/-! ### Soundness and completeness of the name-based fast path -/

lemma findScan_sound (t n : String) :
    ∀ (cs : List QObject) (i : Nat), findScan cs t n = some i →
      ∃ c, cs[i]? = some c ∧ c.type = t ∧ c.name = n := by
  intro cs
  induction cs with
  | nil => intro i h; exact absurd h (by simp [findScan])
  | cons c cs ih =>
    intro i h
    rw [findScan] at h
    by_cases hc : c.type = t ∧ c.name = n
    · rw [if_pos hc] at h
      cases h
      exact ⟨c, by simp, hc.1, hc.2⟩
    · rw [if_neg hc] at h
      cases hscan : findScan cs t n with
      | none => rw [hscan] at h; exact absurd h (by simp)
      | some j =>
        rw [hscan] at h
        simp only [Option.map_some'] at h
        obtain ⟨d, hd, hdt, hdn⟩ := ih j hscan
        exact ⟨d, by cases h; simpa using hd, hdt, hdn⟩

lemma findScan_complete (t n : String) :
    ∀ (cs : List QObject) (i : Nat) (c : QObject),
      cs[i]? = some c → c.type = t → c.name = n → (findScan cs t n).isSome := by
  intro cs
  induction cs with
  | nil => intro i c h; exact absurd h (by simp)
  | cons d cs ih =>
    intro i c h ht hn
    rw [findScan]
    by_cases hd : d.type = t ∧ d.name = n
    · rw [if_pos hd]; rfl
    · rw [if_neg hd]
      cases i with
      | zero =>
        simp only [List.getElem?_cons_zero] at h
        cases h
        exact absurd ⟨ht, hn⟩ hd
      | succ j =>
        simp only [List.getElem?_cons_succ] at h
        have := ih j c h ht hn
        cases hscan : findScan cs t n with
        | none => rw [hscan] at this; exact absurd this (by simp)
        | some _ => rfl

lemma find_sound_aux : ∀ B : Nat,
    (∀ (w : QObject) (t n : String) (p : List Nat), sizeOf w ≤ B →
      findHelper w t n = some p →
      p ≠ [] ∧ ∃ c, getObj w.children p = some c ∧ c.type = t ∧ c.name = n)
    ∧ (∀ (j : Nat) (cs : List QObject) (t n : String) (p : List Nat), sizeOf cs ≤ B →
      findDeep j cs t n = some p →
      ∃ i c' p', p = (j + i) :: p' ∧ cs[i]? = some c' ∧ p' ≠ [] ∧
        ∃ d, getObj c'.children p' = some d ∧ d.type = t ∧ d.name = n) := by
  intro B
  induction B using Nat.strong_induction_on with
  | _ B ih =>
    constructor
    · intro w t n p hB h
      rw [findHelper] at h
      cases hscan : findScan w.children t n with
      | some i =>
        rw [hscan] at h
        cases h
        obtain ⟨c, hc, hct, hcn⟩ := findScan_sound t n w.children i hscan
        exact ⟨by simp, c, by rw [getObj]; exact hc, hct, hcn⟩
      | none =>
        rw [hscan] at h
        have hsz : sizeOf w.children < sizeOf w := by
          cases w with
          | node t0 n0 cs0 => simp only [QObject.children, QObject.node.sizeOf_spec]; omega
        have hlt : sizeOf w.children < B := by omega
        obtain ⟨i, c', p', hp, hc, hp'ne, d, hd, hdt, hdn⟩ :=
          (ih (sizeOf w.children) hlt).2 0 w.children t n p le_rfl h
        refine ⟨by rw [hp]; simp, d, ?_, hdt, hdn⟩
        rw [hp]
        simp only [Nat.zero_add]
        cases p' with
        | nil => exact absurd rfl hp'ne
        | cons a as =>
          rw [getObj, hc]
          exact hd
    · intro j cs t n p hB h
      cases cs with
      | nil => exact absurd h (by simp [findDeep])
      | cons c cs' =>
        rw [findDeep] at h
        have hszc : sizeOf c < B := by
          simp only [List.cons.sizeOf_spec] at hB
          omega
        have hszcs : sizeOf cs' < B := by
          simp only [List.cons.sizeOf_spec] at hB
          have : 0 < sizeOf c := by cases c with | node a b d => simp
          omega
        cases hh : findHelper c t n with
        | some q =>
          rw [hh] at h
          cases h
          obtain ⟨hqne, d, hd, hdt, hdn⟩ := (ih (sizeOf c) hszc).1 c t n q le_rfl hh
          exact ⟨0, c, q, by rw [Nat.add_zero], by simp, hqne, d, hd, hdt, hdn⟩
        | none =>
          rw [hh] at h
          obtain ⟨i, c', p', hp, hc, hp'ne, d, hd, hdt, hdn⟩ :=
            (ih (sizeOf cs') hszcs).2 (j + 1) cs' t n p le_rfl h
          refine ⟨i + 1, c', p', ?_, by simpa using hc, hp'ne, d, hd, hdt, hdn⟩
          rw [hp]
          congr 1
          omega

lemma findChildApp_sound (ws : List QObject) (t n : String) (pos : List Nat)
    (h : findChildApp ws t n = some pos) :
    ∃ w, getObj ws pos = some w ∧ w.type = t ∧ w.name = n := by
  rw [findChildApp] at h
  cases hscan : findScan ws t n with
  | some i =>
    rw [hscan] at h
    cases h
    obtain ⟨c, hc, hct, hcn⟩ := findScan_sound t n ws i hscan
    exact ⟨c, by rw [getObj]; exact hc, hct, hcn⟩
  | none =>
    rw [hscan] at h
    obtain ⟨i, c', p', hp, hc, hp'ne, d, hd, hdt, hdn⟩ :=
      (find_sound_aux (sizeOf ws)).2 0 ws t n pos le_rfl h
    refine ⟨d, ?_, hdt, hdn⟩
    rw [hp]
    simp only [Nat.zero_add]
    cases p' with
    | nil => exact absurd rfl hp'ne
    | cons a as =>
      rw [getObj, hc]
      exact hd

lemma findDeep_complete (t n : String) :
    ∀ (cs : List QObject) (j : Nat),
      (∃ (i : Nat) (c' : QObject), cs[i]? = some c' ∧ (findHelper c' t n).isSome) →
      (findDeep j cs t n).isSome := by
  intro cs
  induction cs with
  | nil =>
    rintro j ⟨i, c', hc, -⟩
    exact absurd hc (by simp)
  | cons c0 cs' ih =>
    rintro j ⟨i, c', hc, hh⟩
    rw [findDeep]
    cases hh0 : findHelper c0 t n with
    | some q => rfl
    | none =>
      cases i with
      | zero =>
        simp only [List.getElem?_cons_zero] at hc
        cases hc
        rw [hh0] at hh
        exact absurd hh (by simp)
      | succ i' =>
        simp only [List.getElem?_cons_succ] at hc
        exact ih (j + 1) ⟨i', c', hc, hh⟩

lemma findHelper_complete (t n : String) :
    ∀ (L : Nat) (p : List Nat) (w : QObject) (c : QObject), p.length ≤ L →
      getObj w.children p = some c → c.type = t → c.name = n →
      (findHelper w t n).isSome := by
  intro L
  induction L with
  | zero =>
    intro p w c hL hp
    cases p with
    | nil => exact absurd hp (by simp [getObj])
    | cons a as => simp at hL
  | succ L ih =>
    intro p w c hL hp ht hn
    rw [findHelper]
    cases hscan : findScan w.children t n with
    | some i => rfl
    | none =>
      cases p with
      | nil => exact absurd hp (by simp [getObj])
      | cons i p' =>
        cases p' with
        | nil =>
          rw [getObj] at hp
          exact absurd (findScan_complete t n w.children i c hp ht hn)
            (by rw [hscan]; simp)
        | cons a as =>
          rw [getObj] at hp
          cases hci : w.children[i]? with
          | none => rw [hci] at hp; exact absurd hp (by simp)
          | some ci =>
            rw [hci] at hp
            have hhi : (findHelper ci t n).isSome :=
              ih (a :: as) ci c (by simp at hL ⊢; omega) hp ht hn
            exact findDeep_complete t n w.children 0 ⟨i, ci, hci, hhi⟩

lemma findChildApp_complete (ws : List QObject) (t n : String) (p : List Nat)
    (c : QObject) (hp : getObj ws p = some c) (ht : c.type = t) (hn : c.name = n) :
    (findChildApp ws t n).isSome := by
  rw [findChildApp]
  cases hscan : findScan ws t n with
  | some i => rfl
  | none =>
    cases p with
    | nil => exact absurd hp (by simp [getObj])
    | cons i p' =>
      cases p' with
      | nil =>
        rw [getObj] at hp
        exact absurd (findScan_complete t n ws i c hp ht hn) (by rw [hscan]; simp)
      | cons a as =>
        rw [getObj] at hp
        cases hci : ws[i]? with
        | none => rw [hci] at hp; exact absurd hp (by simp)
        | some ci =>
          rw [hci] at hp
          have hhi : (findHelper ci t n).isSome :=
            findHelper_complete t n (a :: as).length (a :: as) ci c le_rfl hp ht hn
          exact findDeep_complete t n ws 0 ⟨i, ci, hci, hhi⟩

/-- C7: name fast path.  For a path whose last element carries a non-empty
name, if the live tree contains a descendant of exactly that type and
name, `deserialize_object` returns the object `qApp.findChild` locates —
immediately, in either matching mode, bypassing all positional index
logic — and that object has exactly the requested type and name. -/
theorem c7_name_fast_path (fuzzy : Bool) (ws : List QObject)
    (p : List PathElement) (target : PathElement)
    (hlast : p.getLast? = some target) (hname : target.name ≠ "")
    (hexists : ∃ (q : List Nat) (c : QObject),
      getObj ws q = some c ∧ c.type = target.type ∧ c.name = target.name) :
    ∃ (pos : List Nat) (w : QObject),
      findChildApp ws target.type target.name = some pos
        ∧ deserialize_object fuzzy ws p = .ok (some pos)
        ∧ getObj ws pos = some w ∧ w.type = target.type ∧ w.name = target.name := by
  obtain ⟨q, c, hq, ht, hn⟩ := hexists
  have hsome := findChildApp_complete ws target.type target.name q c hq ht hn
  obtain ⟨pos, hpos⟩ := Option.isSome_iff_exists.mp hsome
  obtain ⟨w, hw, hwt, hwn⟩ := findChildApp_sound ws _ _ pos hpos
  refine ⟨pos, w, hpos, ?_, hw, hwt, hwn⟩
  rw [deserialize_object.eq_def]
  simp only [hlast]
  rw [if_pos hname, hpos]

/-- Witness for C7: the named target is found by the fast path. -/
theorem c7_name_fast_path_witness :
    ∃ (pos : List Nat) (w : QObject),
      findChildApp [.node "QWidget" "" [.node "QLineEdit" "searchBox" []]]
          "QLineEdit" "searchBox" = some pos
        ∧ deserialize_object false
            [.node "QWidget" "" [.node "QLineEdit" "searchBox" []]]
            [⟨0, "QWidget", ""⟩, ⟨0, "QLineEdit", "searchBox"⟩] = .ok (some pos)
        ∧ getObj [.node "QWidget" "" [.node "QLineEdit" "searchBox" []]] pos = some w
        ∧ w.type = "QLineEdit" ∧ w.name = "searchBox" :=
  c7_name_fast_path false _ _ ⟨0, "QLineEdit", "searchBox"⟩ (by rfl) (by decide)
    ⟨[0, 0], .node "QLineEdit" "searchBox" [], by rfl, rfl, rfl⟩

/-- C5: ordinary resolution misses return not-found, never an exception.
Any non-empty path yields an `.ok` answer (the `.error` of the embedding
marks the only uncaught indexing, `path[-1]` on an empty path); in
non-fuzzy mode an out-of-range same-type index at the root — when the
name fast path does not hit — resolves to `.ok none`, and at any deeper
level an out-of-range narrowing makes `get_candidates` answer `none`
rather than raising. -/
theorem c5_resolution_miss :
    (∀ (fuzzy : Bool) (ws : List QObject) (p : List PathElement), p ≠ [] →
      ∃ r, deserialize_object fuzzy ws p = .ok r)
    ∧ (∀ (ws : List QObject) (e0 : PathElement) (rest : List PathElement)
        (target : PathElement),
        (e0 :: rest).getLast? = some target →
        (target.name = "" ∨ findChildApp ws target.type target.name = none) →
        (filtertypeIdx e0.type (enumChildren 0 ws)).length ≤ e0.index →
        deserialize_object false ws (e0 :: rest) = .ok none)
    ∧ (∀ (w : QObject) (base : List Nat) (e e' : PathElement)
        (rest : List PathElement),
        (filtertypeIdx e'.type (enumChildren 0 w.children)).length ≤ e'.index →
        get_candidates false w base (e :: e' :: rest) = none) := by
  refine ⟨?_, ?_, ?_⟩
  · intro fuzzy ws p hne
    obtain ⟨t, ht⟩ := Option.isSome_iff_exists.mp (List.getLast?_isSome.mpr hne)
    rw [deserialize_object.eq_def]
    simp only [ht]
    exact ⟨_, rfl⟩
  · intro ws e0 rest target hlast hmiss hoob
    have hfast : (if target.name ≠ "" then findChildApp ws target.type target.name
        else none) = none := by
      rcases hmiss with h | h
      · rw [if_neg (by simp [h])]
      · by_cases hn : target.name = ""
        · rw [if_neg (by simp [hn])]
        · rw [if_pos hn]; exact h
    rw [deserialize_object.eq_def]
    simp only [hlast]
    rw [hfast, List.getElem?_eq_none hoob]
    rfl
  · intro w base e e' rest hoob
    simp only [get_candidates]
    by_cases hchk : w.type = e.type ∧ (e.name = "" ∨ e.name = w.name)
    · rw [if_pos hchk, List.getElem?_eq_none hoob]
      rfl
    · rw [if_neg hchk]

/-- Witness for C5 at concrete inputs: a one-element unnamed path over an
empty forest resolves to `.ok none` (out-of-range root index), and a
deeper out-of-range narrowing is a dead end. -/
theorem c5_resolution_miss_witness :
    (∃ r, deserialize_object false [] [⟨5, "QWidget", ""⟩] = .ok r)
    ∧ deserialize_object false [] [⟨5, "QWidget", ""⟩] = .ok none
    ∧ get_candidates false (.node "QWidget" "" []) []
        [⟨0, "QWidget", ""⟩, ⟨3, "QLabel", ""⟩] = none := by
  refine ⟨?_, ?_, ?_⟩
  · exact c5_resolution_miss.1 false [] [⟨5, "QWidget", ""⟩] (by decide)
  · exact c5_resolution_miss.2.1 [] ⟨5, "QWidget", ""⟩ [] ⟨5, "QWidget", ""⟩
      (by rfl) (Or.inl rfl) (by decide)
  · exact c5_resolution_miss.2.2 (.node "QWidget" "" []) [] ⟨0, "QWidget", ""⟩
      ⟨3, "QLabel", ""⟩ [] (by decide)

/-! ### Positional path resolution follows the serialized ranks -/

lemma rank_select (c : QObject) :
    ∀ (cs : List QObject) (i k : Nat), cs[i]? = some c →
      (filtertypeIdx c.type (enumChildren k cs))[rankByType cs i c.type]?
        = some (k + i, c) := by
  intro cs
  induction cs with
  | nil => intro i k h; simp at h
  | cons d cs' ih =>
    intro i k h
    cases i with
    | zero =>
      rw [List.getElem?_cons_zero] at h
      have hd := Option.some.inj h
      subst hd
      simp only [rankByType, List.take_zero, List.filter_nil, List.length_nil,
        enumChildren, filtertypeIdx, List.filter_cons]
      rw [if_pos (by simp)]
      simp
    | succ i' =>
      rw [List.getElem?_cons_succ] at h
      have ihk := ih i' (k + 1) h
      simp only [rankByType, filtertypeIdx] at ihk ⊢
      simp only [List.take_succ_cons, enumChildren, List.filter_cons]
      cases hbd : (d.type == c.type) with
      | true =>
        simp only [hbd, if_true, List.length_cons, List.getElem?_cons_succ]
        rw [show k + (i' + 1) = k + 1 + i' from by omega]
        exact ihk
      | false =>
        simp only [hbd, Bool.false_eq_true, if_false]
        rw [show k + (i' + 1) = k + 1 + i' from by omega]
        exact ihk

lemma serialize_object_cons (cs : List QObject) (i : Nat) (pos' : List Nat)
    (r : List PathElement) (h : serialize_object cs (i :: pos') = some r) :
    ∃ c tl, cs[i]? = some c
      ∧ r = ⟨rankByType cs i c.type, c.type, c.name⟩ :: tl
      ∧ ((pos' = [] ∧ tl = []) ∨ serialize_object c.children pos' = some tl) := by
  cases pos' with
  | nil =>
    simp only [serialize_object] at h
    cases hc : cs[i]? with
    | none => rw [hc] at h; exact absurd h (by simp)
    | some c =>
      rw [hc] at h
      refine ⟨c, [], rfl, ?_, Or.inl ⟨rfl, rfl⟩⟩
      exact (Option.some.inj h).symm
  | cons j rest' =>
    cases hc : cs[i]? with
    | none =>
      simp only [serialize_object, hc] at h
      exact absurd h (by simp)
    | some c =>
      simp only [serialize_object, hc] at h
      cases hs : serialize_object c.children (j :: rest') with
      | none =>
        simp only [hs] at h
        exact absurd h (by simp)
      | some tl =>
        simp only [hs] at h
        exact ⟨c, tl, rfl, (Option.some.inj h).symm, Or.inr hs⟩

lemma serialize_getLast :
    ∀ (pos : List Nat) (cs : List QObject) (w : QObject) (p : List PathElement),
      getObj cs pos = some w → serialize_object cs pos = some p →
      ∃ r, p.getLast? = some ⟨r, w.type, w.name⟩ := by
  intro pos
  induction pos with
  | nil => intro cs w p hget _; exact absurd hget (by simp [getObj])
  | cons i pos' ih =>
    intro cs w p hget hser
    obtain ⟨c, tl, hc, hr, hcase⟩ := serialize_object_cons cs i pos' p hser
    rcases hcase with ⟨hpos', htl⟩ | hser'
    · subst hpos' htl hr
      rw [getObj, hc] at hget
      have hcw := Option.some.inj hget
      subst hcw
      exact ⟨_, rfl⟩
    · cases pos' with
      | nil => exact absurd hser' (by simp [serialize_object])
      | cons j rest' =>
        rw [getObj, hc] at hget
        obtain ⟨r, hlastl⟩ := ih c.children w tl hget hser'
        have htlne : tl ≠ [] := by
          intro he
          rw [he] at hlastl
          exact absurd hlastl (by simp)
        subst hr
        cases tl with
        | nil => exact absurd rfl htlne
        | cons x xs =>
          rw [List.getLast?_cons_cons]
          exact ⟨r, hlastl⟩

lemma gc_positional :
    ∀ (pos : List Nat) (w : QObject) (e : PathElement) (base : List Nat)
      (rest : List PathElement),
      w.type = e.type → (e.name = "" ∨ e.name = w.name) →
      ((pos = [] ∧ rest = []) ∨ serialize_object w.children pos = some rest) →
      get_candidates false w base (e :: rest) = some (base ++ pos) := by
  intro pos
  induction pos with
  | nil =>
    rintro w e base rest ht hn (⟨-, rfl⟩ | hser)
    · simp only [get_candidates]
      rw [if_pos ⟨ht, hn⟩]
      simp
    · exact absurd hser (by simp [serialize_object])
  | cons i pos' ih =>
    rintro w e base rest ht hn (⟨hne, -⟩ | hser)
    · exact absurd hne (by simp)
    · obtain ⟨c, tl, hc, hr, hsub⟩ := serialize_object_cons w.children i pos' rest hser
      subst hr
      simp only [get_candidates]
      rw [if_pos ⟨ht, hn⟩]
      have hsel := rank_select c w.children i 0 hc
      rw [Nat.zero_add] at hsel
      rw [hsel, if_neg (by simp)]
      show tryChildren false base [(i, c)]
        (⟨rankByType w.children i c.type, c.type, c.name⟩ :: tl) = some (base ++ i :: pos')
      simp only [tryChildren]
      have hrec := ih c ⟨rankByType w.children i c.type, c.type, c.name⟩ (base ++ [i]) tl rfl
        (Or.inr rfl) hsub
      rw [hrec]
      simp

/-- C1 (amended): path round-trip.  In non-fuzzy mode, deserializing the
serialized path of a live object returns exactly that object, provided
that either the object is unnamed (positional resolution then follows the
recorded same-type ranks exactly), or the name-based fast path — which
takes precedence — locates that very object (it returns the first
descendant in `findChild` order with the target's type and name). -/
theorem c1_path_roundtrip (ws : List QObject) (pos : List Nat) (w : QObject)
    (p : List PathElement) (hobj : getObj ws pos = some w)
    (hser : serialize_object ws pos = some p)
    (hfast : w.name = "" ∨ findChildApp ws w.type w.name = some pos) :
    deserialize_object false ws p = .ok (some pos) := by
  obtain ⟨rL, hlast⟩ := serialize_getLast pos ws w p hobj hser
  by_cases hwn : w.name = ""
  · cases pos with
    | nil => exact absurd hobj (by simp [getObj])
    | cons i pos' =>
      obtain ⟨c, tl, hc, hr, hsub⟩ := serialize_object_cons ws i pos' p hser
      subst hr
      rw [deserialize_object.eq_def]
      simp only [hlast]
      rw [if_neg (by simp [hwn])]
      have hsel := rank_select c ws i 0 hc
      rw [Nat.zero_add] at hsel
      show Except.ok
          (match (filtertypeIdx c.type (enumChildren 0 ws))[rankByType ws i c.type]? with
           | some jw => tryChildren false [] [jw]
               (⟨rankByType ws i c.type, c.type, c.name⟩ :: tl)
           | none => none) = Except.ok (some (i :: pos'))
      rw [hsel]
      show Except.ok (tryChildren false [] [(i, c)]
        (⟨rankByType ws i c.type, c.type, c.name⟩ :: tl)) = Except.ok (some (i :: pos'))
      simp only [tryChildren]
      have hrec := gc_positional pos' c ⟨rankByType ws i c.type, c.type, c.name⟩ [i] tl rfl
        (Or.inr rfl) hsub
      rw [show ([] : List Nat) ++ [i] = [i] from rfl, hrec]
      simp
  · rcases hfast with h | h
    · exact absurd h hwn
    · rw [deserialize_object.eq_def]
      simp only [hlast]
      rw [if_pos (show (⟨rL, w.type, w.name⟩ : PathElement).name ≠ "" from hwn), h]

/-- Counterexample to C1 as stated: two same-type top-level widgets share
the name `"dlg"`, so each has a unique `(type, sibling-index)` signature,
the topology is unchanged, yet deserializing the serialization of the
second widget (position `[1]`) returns the first (position `[0]`): the
name fast path hands back the first `(type, name)` match. -/
theorem c1_path_roundtrip_counterexample :
    serialize_object [QObject.node "QWidget" "dlg" [], QObject.node "QWidget" "dlg" []]
        [1] = some [⟨1, "QWidget", "dlg"⟩]
      ∧ deserialize_object false
          [QObject.node "QWidget" "dlg" [], QObject.node "QWidget" "dlg" []]
          [⟨1, "QWidget", "dlg"⟩] = .ok (some [0])
      ∧ (some [0] : Option (List Nat)) ≠ some [1] := by
  refine ⟨rfl, rfl, by decide⟩

/-- Witness for C1 (amended): an unnamed nested label round-trips to its
own position. -/
theorem c1_path_roundtrip_witness :
    deserialize_object false
        [QObject.node "QWidget" "" [QObject.node "QLabel" "" [], QObject.node "QLabel" "" []]]
        [⟨0, "QWidget", ""⟩, ⟨1, "QLabel", ""⟩] = .ok (some [0, 1]) :=
  c1_path_roundtrip
    [QObject.node "QWidget" "" [QObject.node "QLabel" "" [], QObject.node "QLabel" "" []]]
    [0, 1] (QObject.node "QLabel" "" []) [⟨0, "QWidget", ""⟩, ⟨1, "QLabel", ""⟩]
    rfl rfl (Or.inl rfl)
